import Mathlib

/-!
Shallow embedding of the Pizza Order Allocation Engine of
travis-techteam/elispizzapicker, src/unnamed/part_012 (`ReportService.generateReport`).

The engine is the code between the two prisma fetches and the returned
report object: everything after `votes` and `pizzaOptions` are in memory is a
pure, synchronous computation, embedded here as total functions over lists.

Embedding notes, each argued against the source:

* JS numbers hold DB integers here; priorities are embedded as `Int`,
  slice counts, topping counts and all derived quantities as `Nat`
  (slice counts are non-negative DB integers; `Math.floor(a / 8)` on a
  non-negative integer is `Nat` division, `%` is `Nat.mod`).
* `vote.choices.sort((a, b) => a.priority - b.priority)` (lines 49-50) is an
  in-place stable sort (TimSort); it is embedded as `List.insertionSort`,
  which is stable (and a stable sort by a total preorder is unique), and,
  because it mutates the caller-visible vote object, also as the explicit
  post-state `postVotes`.
* `sortedChoices[0]?.pizzaOptionId || null` (line 62) maps an empty-string id
  to null (JS falsiness). Every later read of `allocatedTo` is guarded by a
  truthiness test (`if (voter.allocatedTo)`, `!v.allocatedTo`,
  `voter.allocatedTo ? ... : null`), so an empty-string id stored in
  `allocatedTo` is observationally identical to null; `jsId` normalises the
  empty string to `none` at every assignment.
* `demandMap` (lines 76-86) keys are the catalog ids plus every id some voter
  is allocated to; `unviableOptions.has(x)` (line 98) is only ever queried at
  `x = voter.allocatedTo`, which is always a key of `demandMap` at that
  point, so the Set test is exactly `0 < demand x && demand x < 4` with
  demand summed over the voters allocated to `x`. `demandOf` computes that
  sum directly.
* Catalog ids come from a primary-key column, so `pizzaMap` and
  `finalDemandMap` (JS Maps, last write wins, first-insertion order) are
  embedded as a list lookup (`pizzaMapGet`, via `reverse.find?` to keep the
  last-wins direction) and a `List.map` over the catalog.
-/

/-- A pizza option row as fetched for the event: id, display name, topping
count (part_012 lines 39-45). -/
structure PizzaOption where
  id : String
  name : String
  toppingCount : Nat
  deriving DecidableEq, Repr

/-- A ranked choice as the engine sees it after the prisma fetch and the
`.map` at part_012 lines 51-55: the referenced option id, the included
option's display name, and the numeric priority. -/
structure ChoiceRec where
  pizzaOptionId : String
  pizzaName : String
  priority : Int
  deriving DecidableEq, Repr

/-- A vote row with its included user and choices (part_012 lines 26-36):
the engine reads `vote.userId`, `vote.user.name`, `vote.sliceCount` and
`vote.choices`. -/
structure Vote where
  userId : String
  userName : String
  sliceCount : Nat
  choices : List ChoiceRec
  deriving DecidableEq, Repr

/-- The engine-internal `VoterAllocation` record (part_012 lines 7-13); the
field name `oderId` keeps the source's spelling. -/
structure Voter where
  oderId : String
  userName : String
  sliceCount : Nat
  choices : List ChoiceRec
  allocatedTo : Option String
  deriving DecidableEq, Repr

/-- The engine-internal `PizzaDemand` record (part_012 lines 15-21). -/
structure PizzaDemand where
  pizzaOptionId : String
  name : String
  toppingCount : Nat
  totalSlices : Nat
  voterCount : Nat
  deriving DecidableEq, Repr

/-- One entry of the order list (part_012 line 152). -/
structure PizzaOrder where
  name : String
  quantity : Nat
  slicesRequested : Nat
  deriving DecidableEq, Repr

/-- One choice as shown in the per-voter breakdown (part_012 lines 196-199). -/
structure VoterChoiceView where
  pizzaName : String
  priority : Int
  deriving DecidableEq, Repr

/-- One per-voter breakdown entry (part_012 lines 190-202). -/
structure VoterBreakdown where
  userId : String
  userName : String
  sliceCount : Nat
  choices : List VoterChoiceView
  allocatedTo : String
  deriving DecidableEq, Repr

/-- The summary block of the report (part_012 lines 214-217). -/
structure ReportSummary where
  totalVoters : Nat
  totalSlicesRequested : Nat
  deriving DecidableEq, Repr

/-- The returned `PizzaOrderRecommendation` (part_012 lines 208-218). -/
structure Report where
  pizzaOrders : List PizzaOrder
  totalPizzas : Nat
  totalSlices : Nat
  droppedOptions : List String
  voterBreakdown : List VoterBreakdown
  summary : ReportSummary
  deriving DecidableEq, Repr

/-- part_012 line 4. -/
def SLICES_PER_PIZZA : Nat := 8

/-- part_012 line 5: 4+ slices rounds up to the next pizza. -/
def MIN_SLICES_TO_ROUND_UP : Nat := 4

/-- part_012 line 69: the iteration cap of the reallocation loop. -/
def maxIterations : Nat := 10

/-- JS truthiness on a string id: the source writes `x || null` at the one
place an id enters `allocatedTo` from indexing, and guards every read of
`allocatedTo` with a truthiness test, so an empty-string id is
observationally null; it is normalised to `none` at every assignment. -/
def jsId (s : String) : Option String := if s = "" then none else some s

/-- The in-place `vote.choices.sort((a, b) => a.priority - b.priority)` of
part_012 lines 49-50: a stable ascending sort by priority (JS `Array.sort`
is stable; a stable sort by a total preorder is unique, so any stable sort
models it — insertion sort is used because it reduces in the kernel). -/
def sortChoices (cs : List ChoiceRec) : List ChoiceRec :=
  cs.insertionSort fun a b => a.priority ≤ b.priority

/-- Initialisation of one `VoterAllocation` (part_012 lines 48-64): choices
sorted by priority, `allocatedTo` starting at the first choice. -/
def initVoter (v : Vote) : Voter :=
  let sorted := sortChoices v.choices
  { oderId := v.userId
    userName := v.userName
    sliceCount := v.sliceCount
    choices := sorted
    allocatedTo :=
      match sorted with
      | [] => none
      | c :: _ => jsId c.pizzaOptionId }

/-- The initial allocation state: one `VoterAllocation` per vote. -/
def initState (votes : List Vote) : List Voter := votes.map initVoter

/-- Aggregate demand on option `pid`: the sum of `sliceCount` over the
voters currently allocated to it (part_012 lines 76-86). -/
def demandOf (s : List Voter) (pid : String) : Nat :=
  (s.map fun v => if v.allocatedTo = some pid then v.sliceCount else 0).sum

/-- The `unviableOptions` membership test of one pass (part_012 lines 88-94):
demand strictly between 0 and `MIN_SLICES_TO_ROUND_UP`. -/
def unviableAt (s : List Voter) (pid : String) : Bool :=
  decide (0 < demandOf s pid) && decide (demandOf s pid < MIN_SLICES_TO_ROUND_UP)

/-- One voter's treatment in the move phase of a pass (part_012 lines
97-118), with the unviable test `u` fixed at the start of the pass: a voter
allocated to an unviable option whose current choice is found moves to the
first later-priority choice, or to unallocated when none exists. -/
def stepVoter (u : String → Bool) (v : Voter) : Voter :=
  match v.allocatedTo with
  | none => v
  | some pid =>
    if u pid then
      match v.choices.find? fun c => decide (c.pizzaOptionId = pid) with
      | none => v
      | some cur =>
        match v.choices.find? fun c => decide (cur.priority < c.priority) with
        | some next => { v with allocatedTo := jsId next.pizzaOptionId }
        | none => { v with allocatedTo := none }
    else v

/-- Whether one voter sets the `changed` flag in a pass (part_012 lines
108-115): both the move-on and the move-to-null branch set it. -/
def voterMoves (u : String → Bool) (v : Voter) : Bool :=
  match v.allocatedTo with
  | none => false
  | some pid =>
    u pid && (v.choices.find? fun c => decide (c.pizzaOptionId = pid)).isSome

/-- One body execution of the reallocation loop (part_012 lines 71-119):
the new state and the `changed` flag. The demand map and the unviable set
are computed once from the state at the start of the pass; each voter is
then processed once, independently of the others. -/
def runPass (s : List Voter) : List Voter × Bool :=
  (s.map (stepVoter (unviableAt s)), s.any (voterMoves (unviableAt s)))

/-- The `while (changed && iterations < maxIterations)` loop (part_012 lines
66-119), with the remaining allowance of body executions as fuel: returns
the final state and the final value of `iterations` (the number of body
executions). -/
def runLoop : Nat → List Voter → List Voter × Nat
  | 0, s => (s, 0)
  | fuel + 1, s =>
    if (runPass s).2 then
      ((runLoop fuel (runPass s).1).1, (runLoop fuel (runPass s).1).2 + 1)
    else ((runPass s).1, 1)

/-- The whole waterfall reallocation: initial state, then the capped loop. -/
def waterfall (votes : List Vote) : List Voter × Nat :=
  runLoop maxIterations (initState votes)

/-- The state at the start of pass `n + 1`, iterating the pass body without
the cap or the changed test; the states the loop actually visits are a
prefix of this trajectory. -/
def iterPass : Nat → List Voter → List Voter
  | 0, s => s
  | n + 1, s => iterPass n (runPass s).1

/-- Final per-option demand (part_012 lines 122-141): one `PizzaDemand` per
catalog entry, slices and voter count summed over the final allocations. -/
def finalDemands (opts : List PizzaOption) (s : List Voter) : List PizzaDemand :=
  opts.map fun o =>
    { pizzaOptionId := o.id
      name := o.name
      toppingCount := o.toppingCount
      totalSlices := demandOf s o.id
      voterCount := (s.filter fun v => decide (v.allocatedTo = some o.id)).length }

/-- The in-place `demands.sort((a, b) => b.totalSlices - a.totalSlices)` of
part_012 line 149: a stable descending sort by total slices. -/
def sortDemandsDesc (l : List PizzaDemand) : List PizzaDemand :=
  l.insertionSort fun a b => b.totalSlices ≤ a.totalSlices

/-- The order entry the quantizer pushes for one demand entry (part_012
lines 155-169): floor division by 8, round up on a remainder of 4+, nothing
pushed when the total would be 0. -/
def orderEntryOf (d : PizzaDemand) : Option PizzaOrder :=
  let fullCount := d.totalSlices / SLICES_PER_PIZZA
  let remainder := d.totalSlices % SLICES_PER_PIZZA
  let roundUp := if MIN_SLICES_TO_ROUND_UP ≤ remainder then 1 else 0
  let totalPizzas := fullCount + roundUp
  if 0 < totalPizzas then
    some { name := d.name, quantity := totalPizzas, slicesRequested := d.totalSlices }
  else none

/-- The dropped-remainder explanation of part_012 lines 172-176. -/
def remainderMsg (name : String) (rem : Nat) : String :=
  name ++ ": " ++ toString rem ++ " slices dropped (below " ++
    toString MIN_SLICES_TO_ROUND_UP ++ "-slice minimum for rounding)"

/-- The dropped-remainder entry the quantizer pushes for one demand entry
(part_012 lines 171-176): a remainder strictly between 0 and 4. -/
def remainderDropOf (d : PizzaDemand) : Option String :=
  let remainder := d.totalSlices % SLICES_PER_PIZZA
  if 0 < remainder ∧ remainder < MIN_SLICES_TO_ROUND_UP then
    some (remainderMsg d.name remainder)
  else none

/-- The unallocated-voter explanation of part_012 lines 182-186. -/
def unallocatedMsg (userName : String) (slices : Nat) : String :=
  userName ++ "\x27s " ++ toString slices ++
    " slices couldn\x27t be allocated (no viable options)"

/-- The `pizzaMap.get` lookup (part_012 lines 45, 191); `reverse.find?`
mirrors a JS Map's last-write-wins on the catalog list. -/
def pizzaMapGet (opts : List PizzaOption) (pid : String) : Option PizzaOption :=
  opts.reverse.find? fun p => decide (p.id = pid)

/-- One per-voter breakdown entry (part_012 lines 190-202). -/
def breakdownOf (opts : List PizzaOption) (v : Voter) : VoterBreakdown :=
  { userId := v.oderId
    userName := v.userName
    sliceCount := v.sliceCount
    choices := v.choices.map fun c => { pizzaName := c.pizzaName, priority := c.priority }
    allocatedTo :=
      match v.allocatedTo with
      | none => "Not allocated"
      | some pid =>
        match pizzaMapGet opts pid with
        | some p => p.name
        | none => "Not allocated" }

/-- The sorted list of positive-demand entries handed to the quantizer
(part_012 lines 143-149). -/
def positiveDemands (opts : List PizzaOption) (s : List Voter) : List PizzaDemand :=
  sortDemandsDesc ((finalDemands opts s).filter fun d => decide (0 < d.totalSlices))

/-- The whole engine after the two prisma fetches (part_012 lines 43-218):
waterfall reallocation, quantizer and report assembly. -/
def generateReport (opts : List PizzaOption) (votes : List Vote) : Report :=
  let s := (waterfall votes).1
  let demands := positiveDemands opts s
  let orders := demands.filterMap orderEntryOf
  let dropped :=
    demands.filterMap remainderDropOf ++
      ((s.filter fun v => decide (v.allocatedTo = none)).map fun v =>
        unallocatedMsg v.userName v.sliceCount)
  let total := (orders.map fun o => o.quantity).sum
  { pizzaOrders := orders
    totalPizzas := total
    totalSlices := total * SLICES_PER_PIZZA
    droppedOptions := dropped
    voterBreakdown := s.map (breakdownOf opts)
    summary :=
      { totalVoters := votes.length
        totalSlicesRequested := (votes.map fun v => v.sliceCount).sum } }

/-- The post-state of the caller's vote objects after `generateReport`
returns: the in-place `vote.choices.sort(...)` at part_012 lines 49-50 is
the one mutation the engine performs on its input; every other write targets
the derived `VoterAllocation` records. -/
def postVotes (votes : List Vote) : List Vote :=
  votes.map fun v => { v with choices := sortChoices v.choices }

/-- The quantity formula in the spec's words (spec §4.3 and the Threshold
correctness testable property): quantity = floor(d/8) + (1 if d%8 >= 4 else
0). Stated from the spec, to be compared with the quantizer of `orderOf`. -/
def specQuantity (d : Nat) : Nat :=
  d / 8 + if 4 ≤ d % 8 then 1 else 0

/-! ### Basic lemmas about the embedded engine -/

theorem demandOf_nil (pid : String) : demandOf [] pid = 0 := rfl

theorem demandOf_cons (v : Voter) (s : List Voter) (pid : String) :
    demandOf (v :: s) pid =
      (if v.allocatedTo = some pid then v.sliceCount else 0) + demandOf s pid := by
  simp [demandOf]

theorem stepVoter_shape (u : String → Bool) (v : Voter) :
    ∃ a, stepVoter u v = { v with allocatedTo := a } := by
  unfold stepVoter
  repeat' split
  all_goals exact ⟨_, rfl⟩

theorem stepVoter_choices (u : String → Bool) (v : Voter) :
    (stepVoter u v).choices = v.choices := by
  obtain ⟨a, h⟩ := stepVoter_shape u v
  rw [h]

theorem stepVoter_sliceCount (u : String → Bool) (v : Voter) :
    (stepVoter u v).sliceCount = v.sliceCount := by
  obtain ⟨a, h⟩ := stepVoter_shape u v
  rw [h]

theorem stepVoter_oderId (u : String → Bool) (v : Voter) :
    (stepVoter u v).oderId = v.oderId := by
  obtain ⟨a, h⟩ := stepVoter_shape u v
  rw [h]

theorem stepVoter_userName (u : String → Bool) (v : Voter) :
    (stepVoter u v).userName = v.userName := by
  obtain ⟨a, h⟩ := stepVoter_shape u v
  rw [h]

theorem stepVoter_of_none (u : String → Bool) (v : Voter)
    (h : v.allocatedTo = none) : stepVoter u v = v := by
  unfold stepVoter
  rw [h]

theorem stepVoter_of_not_unviable (u : String → Bool) (v : Voter) (pid : String)
    (halloc : v.allocatedTo = some pid) (hu : u pid = false) : stepVoter u v = v := by
  obtain ⟨oid, un, sc, cs, alloc⟩ := v
  simp only at halloc
  subst halloc
  simp [stepVoter, hu]

theorem stepVoter_eq_self (u : String → Bool) (v : Voter)
    (h : voterMoves u v = false) : stepVoter u v = v := by
  obtain ⟨oid, un, sc, cs, alloc⟩ := v
  cases alloc with
  | none => rfl
  | some pid =>
    simp only [voterMoves] at h
    cases hu : u pid with
    | false => simp [stepVoter, hu]
    | true =>
      rw [hu, Bool.true_and] at h
      cases hf : List.find? (fun c => decide (c.pizzaOptionId = pid)) cs with
      | some cur =>
        rw [hf] at h
        simp at h
      | none => simp [stepVoter, hu, hf]

theorem map_self_of_eq {α : Type} (l : List α) (f : α → α) (h : ∀ a ∈ l, f a = a) :
    l.map f = l := by
  induction l with
  | nil => rfl
  | cons a t ih =>
    simp only [List.map_cons, h a (List.mem_cons_self a t)]
    rw [ih fun x hx => h x (List.mem_cons_of_mem a hx)]

theorem runPass_fst (s : List Voter) :
    (runPass s).1 = s.map (stepVoter (unviableAt s)) := rfl

theorem runPass_snd (s : List Voter) :
    (runPass s).2 = s.any (voterMoves (unviableAt s)) := rfl

theorem runPass_fst_of_stable (s : List Voter) (h : (runPass s).2 = false) :
    (runPass s).1 = s := by
  rw [runPass_snd, List.any_eq_false] at h
  rw [runPass_fst]
  exact map_self_of_eq s _ fun v hv =>
    stepVoter_eq_self _ v (Bool.eq_false_iff.mpr (h v hv))

theorem iterPass_succ_out (n : Nat) (s : List Voter) :
    iterPass (n + 1) s = (runPass (iterPass n s)).1 := by
  induction n generalizing s with
  | zero => rfl
  | succ n ih =>
    show iterPass (n + 1) (runPass s).1 = _
    rw [ih]
    rfl

theorem iterPass_add (a b : Nat) (s : List Voter) :
    iterPass (a + b) s = iterPass b (iterPass a s) := by
  induction b with
  | zero => rfl
  | succ b ih =>
    show iterPass ((a + b) + 1) s = _
    rw [iterPass_succ_out, iterPass_succ_out, ih]

theorem unviableAt_false_of_ge (s : List Voter) (pid : String)
    (h : MIN_SLICES_TO_ROUND_UP ≤ demandOf s pid) : unviableAt s pid = false := by
  have h4 : 4 ≤ demandOf s pid := h
  have hnot : ¬ demandOf s pid < 4 := by omega
  simp [unviableAt, MIN_SLICES_TO_ROUND_UP, hnot]

theorem demand_le_runPass (s : List Voter) (pid : String)
    (h4 : MIN_SLICES_TO_ROUND_UP ≤ demandOf s pid) :
    demandOf s pid ≤ demandOf (runPass s).1 pid := by
  rw [runPass_fst]
  unfold demandOf
  rw [List.map_map]
  apply List.sum_le_sum
  intro v hv
  by_cases ha : v.allocatedTo = some pid
  · have hstep : stepVoter (unviableAt s) v = v :=
      stepVoter_of_not_unviable _ v pid ha (unviableAt_false_of_ge s pid h4)
    simp [Function.comp, hstep]
  · simp [ha]

theorem demand_member_le (s : List Voter) (v : Voter) (pid : String)
    (hv : v ∈ s) (ha : v.allocatedTo = some pid) : v.sliceCount ≤ demandOf s pid := by
  unfold demandOf
  have hmem : (if v.allocatedTo = some pid then v.sliceCount else 0) ∈
      s.map fun w => if w.allocatedTo = some pid then w.sliceCount else 0 :=
    List.mem_map_of_mem _ hv
  rw [ha] at hmem
  simp only [if_pos rfl] at hmem
  exact List.single_le_sum (fun x _ => Nat.zero_le x) _ hmem

theorem demand_pos_contributor (s : List Voter) (pid : String)
    (h : 0 < demandOf s pid) :
    ∃ v ∈ s, v.allocatedTo = some pid ∧ 0 < v.sliceCount := by
  induction s with
  | nil => simp [demandOf_nil] at h
  | cons v t ih =>
    rw [demandOf_cons] at h
    by_cases ha : v.allocatedTo = some pid
    · by_cases hs : 0 < v.sliceCount
      · exact ⟨v, List.mem_cons_self v t, ha, hs⟩
      · have ht : 0 < demandOf t pid := by
          rw [if_pos ha] at h
          omega
        obtain ⟨w, hw, hwa, hws⟩ := ih ht
        exact ⟨w, List.mem_cons_of_mem v hw, hwa, hws⟩
    · have ht : 0 < demandOf t pid := by
        rw [if_neg ha] at h
        omega
      obtain ⟨w, hw, hwa, hws⟩ := ih ht
      exact ⟨w, List.mem_cons_of_mem v hw, hwa, hws⟩

theorem countP_lt_countP {α : Type} (p q : α → Bool) (l : List α)
    (hpq : ∀ x ∈ l, p x = true → q x = true) (a : α) (ha : a ∈ l)
    (hpa : p a = false) (hqa : q a = true) : l.countP p < l.countP q := by
  have h1 : (if (true : Bool) = true then 1 else 0) = 1 := by simp
  have h0 : (if (false : Bool) = true then 1 else 0) = 0 := by simp
  induction l with
  | nil => cases ha
  | cons b t ih =>
    rw [List.countP_cons, List.countP_cons]
    rcases List.mem_cons.mp ha with rfl | hat
    · have hle : t.countP p ≤ t.countP q :=
        List.countP_mono_left fun x hx h => hpq x (List.mem_cons_of_mem _ hx) h
      rw [hpa, hqa, h0, h1]
      omega
    · have hlt : t.countP p < t.countP q :=
        ih (fun x hx h => hpq x (List.mem_cons_of_mem _ hx) h) hat
      cases hpb : p b with
      | true =>
        rw [hpq b (List.mem_cons_self b t) hpb, h1]
        omega
      | false =>
        rw [h0]
        cases hqb : q b with
        | true => rw [h1]; omega
        | false => rw [h0]; omega

theorem find?_id_eq_of_nodup (l : List ChoiceRec)
    (hn : (l.map fun c => c.pizzaOptionId).Nodup) (c : ChoiceRec) (hc : c ∈ l) :
    l.find? (fun x => decide (x.pizzaOptionId = c.pizzaOptionId)) = some c := by
  induction l with
  | nil => cases hc
  | cons b t ih =>
    rw [List.map_cons, List.nodup_cons] at hn
    by_cases hb : b.pizzaOptionId = c.pizzaOptionId
    · have hcb : c = b := by
        rcases List.mem_cons.mp hc with rfl | hct
        · rfl
        · exfalso
          apply hn.1
          rw [hb]
          exact List.mem_map_of_mem _ hct
      subst hcb
      exact List.find?_cons_of_pos t (by simp)
    · have hct : c ∈ t := by
        rcases List.mem_cons.mp hc with rfl | hct
        · exact absurd rfl hb
        · exact hct
      rw [List.find?_cons_of_neg t (by simp [hb])]
      exact ih hn.2 hct

theorem jsId_eq_some (s t : String) (h : jsId s = some t) : t = s := by
  unfold jsId at h
  by_cases he : s = ""
  · rw [if_pos he] at h
    cases h
  · rw [if_neg he] at h
    exact (Option.some_inj.mp h).symm

/-- The option ids a voter's ranked list references. -/
def choiceIds (v : Voter) : List String := v.choices.map fun c => c.pizzaOptionId

/-- Invariant: a voter is only ever allocated to an option of their own
ranked list (established at initialisation, preserved by every move). -/
def allocOk (v : Voter) : Prop := ∀ pid, v.allocatedTo = some pid → pid ∈ choiceIds v

/-- The input-contract property of spec §3/§6: the choices of one vote
reference pairwise distinct pizza options. -/
def nodupIds (v : Voter) : Prop := (choiceIds v).Nodup

/-- The state invariant the engine maintains for every voter. -/
def GoodState (s : List Voter) : Prop := ∀ v ∈ s, allocOk v ∧ nodupIds v

theorem stepVoter_cases (u : String → Bool) (v : Voter) :
    stepVoter u v = v ∨
    (∃ pid cur next, v.allocatedTo = some pid ∧ u pid = true ∧
      v.choices.find? (fun c => decide (c.pizzaOptionId = pid)) = some cur ∧
      v.choices.find? (fun c => decide (cur.priority < c.priority)) = some next ∧
      stepVoter u v = { v with allocatedTo := jsId next.pizzaOptionId }) ∨
    (∃ pid cur, v.allocatedTo = some pid ∧ u pid = true ∧
      v.choices.find? (fun c => decide (c.pizzaOptionId = pid)) = some cur ∧
      v.choices.find? (fun c => decide (cur.priority < c.priority)) = none ∧
      stepVoter u v = { v with allocatedTo := none }) := by
  obtain ⟨oid, un, sc, cs, alloc⟩ := v
  cases alloc with
  | none => exact Or.inl rfl
  | some pid =>
    cases hu : u pid with
    | false => exact Or.inl (stepVoter_of_not_unviable u _ pid rfl hu)
    | true =>
      cases hcur : cs.find? (fun c => decide (c.pizzaOptionId = pid)) with
      | none =>
        refine Or.inl ?_
        simp [stepVoter, hu, hcur]
      | some cur =>
        cases hnext : cs.find? (fun c => decide (cur.priority < c.priority)) with
        | some next =>
          refine Or.inr (Or.inl ⟨pid, cur, next, rfl, hu, hcur, hnext, ?_⟩)
          simp [stepVoter, hu, hcur, hnext]
        | none =>
          refine Or.inr (Or.inr ⟨pid, cur, rfl, hu, hcur, hnext, ?_⟩)
          simp [stepVoter, hu, hcur, hnext]

theorem allocOk_stepVoter (u : String → Bool) (v : Voter) (h : allocOk v) :
    allocOk (stepVoter u v) := by
  rcases stepVoter_cases u v with heq | ⟨pid, cur, next, _, _, _, hnext, heq⟩ |
      ⟨pid, cur, _, _, _, _, heq⟩
  · rw [heq]; exact h
  · rw [heq]
    intro q hq
    simp only at hq
    have hqn : q = next.pizzaOptionId := jsId_eq_some _ _ hq
    subst hqn
    show next.pizzaOptionId ∈ v.choices.map fun c => c.pizzaOptionId
    exact List.mem_map_of_mem _ (List.mem_of_find?_eq_some hnext)
  · rw [heq]
    intro q hq
    simp only at hq
    cases hq

theorem nodupIds_stepVoter (u : String → Bool) (v : Voter) (h : nodupIds v) :
    nodupIds (stepVoter u v) := by
  unfold nodupIds choiceIds at h ⊢
  rw [stepVoter_choices]
  exact h

theorem GoodState_runPass (s : List Voter) (h : GoodState s) :
    GoodState (runPass s).1 := by
  rw [runPass_fst]
  intro w hw
  rw [List.mem_map] at hw
  obtain ⟨v, hv, rfl⟩ := hw
  exact ⟨allocOk_stepVoter _ v (h v hv).1, nodupIds_stepVoter _ v (h v hv).2⟩

theorem GoodState_runLoop (fuel : Nat) (s : List Voter) (h : GoodState s) :
    GoodState (runLoop fuel s).1 := by
  induction fuel generalizing s with
  | zero => exact h
  | succ fuel ih =>
    simp only [runLoop]
    by_cases hc : (runPass s).2 = true
    · rw [if_pos hc]
      exact ih _ (GoodState_runPass s h)
    · rw [if_neg hc]
      exact GoodState_runPass s h

theorem GoodState_init (votes : List Vote)
    (hn : ∀ v ∈ votes, (v.choices.map fun c => c.pizzaOptionId).Nodup) :
    GoodState (initState votes) := by
  intro w hw
  rw [initState, List.mem_map] at hw
  obtain ⟨v, hv, rfl⟩ := hw
  have hperm : (sortChoices v.choices).Perm v.choices := List.perm_insertionSort _ _
  have hnod : ((sortChoices v.choices).map fun c => c.pizzaOptionId).Nodup :=
    ((hperm.map fun c => c.pizzaOptionId).nodup_iff).mpr (hn v hv)
  constructor
  · intro pid hpid
    unfold initVoter at hpid
    simp only at hpid
    show pid ∈ (sortChoices v.choices).map fun c => c.pizzaOptionId
    cases hs : sortChoices v.choices with
    | nil =>
      rw [hs] at hpid
      simp at hpid
    | cons c rest =>
      rw [hs] at hpid
      have hpid2 : jsId c.pizzaOptionId = some pid := hpid
      have hpc : pid = c.pizzaOptionId := jsId_eq_some _ _ hpid2
      subst hpc
      exact List.mem_map_of_mem _ (List.mem_cons_self _ _)
  · show ((sortChoices v.choices).map fun c => c.pizzaOptionId).Nodup
    exact hnod

/-- The number of moves a voter can still make: 0 when unallocated or when
the current choice cannot be found, else one more than the number of
strictly later-priority choices than the currently found one. -/
def movesLeft (v : Voter) : Nat :=
  match v.allocatedTo with
  | none => 0
  | some pid =>
    match v.choices.find? fun c => decide (c.pizzaOptionId = pid) with
    | none => 0
    | some cur => 1 + v.choices.countP fun c => decide (cur.priority < c.priority)

theorem movesLeft_none (v : Voter) (h : v.allocatedTo = none) : movesLeft v = 0 := by
  unfold movesLeft
  rw [h]

theorem movesLeft_alloc_some (v : Voter) (pid : String) (h : v.allocatedTo = some pid) :
    movesLeft v =
      (match v.choices.find? fun c => decide (c.pizzaOptionId = pid) with
        | none => 0
        | some cur => 1 + v.choices.countP fun c => decide (cur.priority < c.priority)) := by
  unfold movesLeft
  rw [h]

theorem movesLeft_pos (v : Voter) (pid : String) (hok : allocOk v)
    (h : v.allocatedTo = some pid) : 1 ≤ movesLeft v := by
  rw [movesLeft_alloc_some v pid h]
  obtain ⟨c, hc, hcid⟩ := List.mem_map.mp (hok pid h)
  have hfs : (v.choices.find? fun x => decide (x.pizzaOptionId = pid)).isSome := by
    rw [List.find?_isSome]
    exact ⟨c, hc, by simp [hcid]⟩
  cases hf : v.choices.find? fun x => decide (x.pizzaOptionId = pid) with
  | none =>
    rw [hf] at hfs
    simp at hfs
  | some cur =>
    exact Nat.le_add_right 1 _

theorem movesLeft_move_lt (v : Voter) (hnod : nodupIds v) (pid : String)
    (cur next : ChoiceRec) (halloc : v.allocatedTo = some pid)
    (hcur : v.choices.find? (fun c => decide (c.pizzaOptionId = pid)) = some cur)
    (hnext : v.choices.find? (fun c => decide (cur.priority < c.priority)) = some next) :
    movesLeft { v with allocatedTo := jsId next.pizzaOptionId } < movesLeft v := by
  have hmv : movesLeft v =
      1 + v.choices.countP fun c => decide (cur.priority < c.priority) := by
    rw [movesLeft_alloc_some v pid halloc, hcur]
  have hcn : cur.priority < next.priority := by
    have := List.find?_some hnext
    simpa using this
  have hnmem : next ∈ v.choices := List.mem_of_find?_eq_some hnext
  rw [hmv]
  cases hj : jsId next.pizzaOptionId with
  | none =>
    show 0 < 1 + (v.choices.countP fun c => decide (cur.priority < c.priority))
    omega
  | some q =>
    have hq : q = next.pizzaOptionId := jsId_eq_some _ _ hj
    subst hq
    have hfind : v.choices.find?
        (fun c => decide (c.pizzaOptionId = next.pizzaOptionId)) = some next :=
      find?_id_eq_of_nodup v.choices hnod next hnmem
    rw [movesLeft_alloc_some _ next.pizzaOptionId rfl]
    have hch : ({ v with allocatedTo := some next.pizzaOptionId } : Voter).choices =
        v.choices := rfl
    rw [hch, hfind]
    have hlt : (v.choices.countP fun c => decide (next.priority < c.priority)) <
        v.choices.countP fun c => decide (cur.priority < c.priority) := by
      refine countP_lt_countP _ _ _ ?_ next hnmem ?_ ?_
      · intro x hx hpx
        simp only [decide_eq_true_eq] at hpx ⊢
        omega
      · simp
      · simpa using hcn
    show 1 + (v.choices.countP fun c => decide (next.priority < c.priority)) <
      1 + (v.choices.countP fun c => decide (cur.priority < c.priority))
    omega

theorem stepVoter_move (u : String → Bool) (v : Voter) (pid : String) (cur : ChoiceRec)
    (halloc : v.allocatedTo = some pid) (hu : u pid = true)
    (hcur : v.choices.find? (fun c => decide (c.pizzaOptionId = pid)) = some cur) :
    stepVoter u v =
      (match v.choices.find? fun c => decide (cur.priority < c.priority) with
        | some next => { v with allocatedTo := jsId next.pizzaOptionId }
        | none => { v with allocatedTo := none }) := by
  unfold stepVoter
  rw [halloc]
  simp [hu, hcur]

theorem voterMoves_elim (u : String → Bool) (v : Voter) (h : voterMoves u v = true) :
    ∃ pid, v.allocatedTo = some pid ∧ u pid = true ∧
      (v.choices.find? fun c => decide (c.pizzaOptionId = pid)).isSome = true := by
  obtain ⟨oid, un, sc, cs, alloc⟩ := v
  cases alloc with
  | none => simp [voterMoves] at h
  | some pid =>
    simp only [voterMoves] at h
    rw [Bool.and_eq_true] at h
    exact ⟨pid, rfl, h.1, h.2⟩

theorem unviableAt_true_elim (s : List Voter) (pid : String) (h : unviableAt s pid = true) :
    0 < demandOf s pid ∧ demandOf s pid < MIN_SLICES_TO_ROUND_UP := by
  unfold unviableAt at h
  rw [Bool.and_eq_true] at h
  exact ⟨of_decide_eq_true h.1, of_decide_eq_true h.2⟩

/-- Budget invariant of the reallocation loop: every voter with positive
weight is unallocated, settled on a viable option, or can still make at
most `b` moves. -/
def withinBudget (s : List Voter) (b : Nat) : Prop :=
  ∀ v ∈ s, 0 < v.sliceCount →
    v.allocatedTo = none ∨
    (∃ pid, v.allocatedTo = some pid ∧ MIN_SLICES_TO_ROUND_UP ≤ demandOf s pid) ∨
    movesLeft v ≤ b

theorem withinBudget_step (s : List Voter) (b : Nat) (hg : GoodState s)
    (hb : withinBudget s (b + 1)) : withinBudget (runPass s).1 b := by
  rw [runPass_fst]
  intro w hw hws
  rw [List.mem_map] at hw
  obtain ⟨v, hv, rfl⟩ := hw
  rw [stepVoter_sliceCount] at hws
  have hviable : ∀ pid, v.allocatedTo = some pid →
      MIN_SLICES_TO_ROUND_UP ≤ demandOf s pid →
      (stepVoter (unviableAt s) v).allocatedTo = some pid ∧
        MIN_SLICES_TO_ROUND_UP ≤
          demandOf (s.map (stepVoter (unviableAt s))) pid := by
    intro pid halloc hdem
    have hu : unviableAt s pid = false := unviableAt_false_of_ge s pid hdem
    have hst : stepVoter (unviableAt s) v = v :=
      stepVoter_of_not_unviable _ v pid halloc hu
    have hle := demand_le_runPass s pid hdem
    rw [runPass_fst] at hle
    refine ⟨by rw [hst]; exact halloc, by omega⟩
  rcases hb v hv hws with hnone | ⟨pid, halloc, hdem⟩ | hml
  · left
    rw [stepVoter_of_none _ v hnone]
    exact hnone
  · right; left
    obtain ⟨h1, h2⟩ := hviable pid halloc hdem
    exact ⟨pid, h1, h2⟩
  · cases halloc : v.allocatedTo with
    | none =>
      left
      rw [stepVoter_of_none _ v halloc]
      exact halloc
    | some pid =>
      have hdem0 : 0 < demandOf s pid :=
        Nat.lt_of_lt_of_le hws (demand_member_le s v pid hv halloc)
      by_cases hd4 : MIN_SLICES_TO_ROUND_UP ≤ demandOf s pid
      · right; left
        obtain ⟨h1, h2⟩ := hviable pid halloc hd4
        exact ⟨pid, h1, h2⟩
      · have hu : unviableAt s pid = true := by
          unfold unviableAt
          have hlt4 : demandOf s pid < MIN_SLICES_TO_ROUND_UP := by omega
          simp [hdem0, hlt4]
        have hfs : (v.choices.find? fun c => decide (c.pizzaOptionId = pid)).isSome := by
          rw [List.find?_isSome]
          obtain ⟨c, hc, hcid⟩ := List.mem_map.mp ((hg v hv).1 pid halloc)
          exact ⟨c, hc, by simp [hcid]⟩
        cases hcur : v.choices.find? fun c => decide (c.pizzaOptionId = pid) with
        | none =>
          rw [hcur] at hfs
          simp at hfs
        | some cur =>
          have hmove := stepVoter_move (unviableAt s) v pid cur halloc hu hcur
          cases hnext : v.choices.find? fun c => decide (cur.priority < c.priority) with
          | none =>
            left
            rw [hmove, hnext]
          | some next =>
            right; right
            rw [hmove, hnext]
            show movesLeft { v with allocatedTo := jsId next.pizzaOptionId } ≤ b
            have hdec := movesLeft_move_lt v (hg v hv).2 pid cur next halloc hcur hnext
            have hmv : movesLeft v =
                1 + v.choices.countP fun c => decide (cur.priority < c.priority) := by
              rw [movesLeft_alloc_some v pid halloc, hcur]
            omega

theorem runPass_stable_of_budget_zero (s : List Voter) (hg : GoodState s)
    (hb : withinBudget s 0) : (runPass s).2 = false := by
  rw [runPass_snd, List.any_eq_false]
  intro v hv hmov
  obtain ⟨pid, halloc, hu, hfs⟩ := voterMoves_elim _ v hmov
  obtain ⟨hpos, hlt4⟩ := unviableAt_true_elim s pid hu
  obtain ⟨w, hw, hwa, hws⟩ := demand_pos_contributor s pid hpos
  rcases hb w hw hws with hwnone | ⟨pid2, hwalloc, hwdem⟩ | hwml
  · rw [hwnone] at hwa
    cases hwa
  · rw [hwalloc] at hwa
    have : pid2 = pid := by
      injection hwa
    subst this
    omega
  · have := movesLeft_pos w pid (hg w hw).1 hwa
    omega

theorem runLoop_count_le_fuel (fuel : Nat) (s : List Voter) :
    (runLoop fuel s).2 ≤ fuel := by
  induction fuel generalizing s with
  | zero => exact Nat.le_refl 0
  | succ fuel ih =>
    simp only [runLoop]
    by_cases hc : (runPass s).2 = true
    · rw [if_pos hc]
      have := ih (runPass s).1
      show (runLoop fuel (runPass s).1).2 + 1 ≤ fuel + 1
      omega
    · rw [if_neg hc]
      show 1 ≤ fuel + 1
      omega

theorem runLoop_le_budget (b : Nat) : ∀ fuel s, GoodState s → withinBudget s b →
    b < fuel → (runLoop fuel s).2 ≤ b + 1 ∧ (runPass (runLoop fuel s).1).2 = false := by
  induction b with
  | zero =>
    intro fuel s hg hb hf
    cases fuel with
    | zero => omega
    | succ fuel =>
      have hst : (runPass s).2 = false := runPass_stable_of_budget_zero s hg hb
      have hcond : ¬ ((runPass s).2 = true) := by
        rw [hst]
        simp
      simp only [runLoop]
      rw [if_neg hcond]
      refine ⟨Nat.le_refl 1, ?_⟩
      show (runPass (runPass s).1).2 = false
      rw [runPass_fst_of_stable s hst]
      exact hst
  | succ b ih =>
    intro fuel s hg hb hf
    cases fuel with
    | zero => omega
    | succ fuel =>
      simp only [runLoop]
      by_cases hc : (runPass s).2 = true
      · rw [if_pos hc]
        have hg2 : GoodState (runPass s).1 := GoodState_runPass s hg
        have hb2 : withinBudget (runPass s).1 b := withinBudget_step s b hg hb
        have hrec := ih fuel (runPass s).1 hg2 hb2 (by omega)
        have h1 := hrec.1
        refine ⟨?_, hrec.2⟩
        show (runLoop fuel (runPass s).1).2 + 1 ≤ b + 1 + 1
        omega
      · rw [if_neg hc]
        have hst : (runPass s).2 = false := Bool.eq_false_iff.mpr hc
        refine ⟨?_, ?_⟩
        · show 1 ≤ b + 1 + 1
          omega
        · show (runPass (runPass s).1).2 = false
          rw [runPass_fst_of_stable s hst]
          exact hst

theorem initVoter_allocatedTo (v : Vote) :
    (initVoter v).allocatedTo =
      (match sortChoices v.choices with
        | [] => none
        | c :: _ => jsId c.pizzaOptionId) := rfl

theorem initVoter_choices (v : Vote) : (initVoter v).choices = sortChoices v.choices := rfl

theorem withinBudget_init (votes : List Vote)
    (hlen : ∀ v ∈ votes, v.choices.length ≤ 3) :
    withinBudget (initState votes) 3 := by
  intro w hw hws
  rw [initState, List.mem_map] at hw
  obtain ⟨v, hv, rfl⟩ := hw
  right; right
  cases hs : sortChoices v.choices with
  | nil =>
    have hno : (initVoter v).allocatedTo = none := by
      rw [initVoter_allocatedTo, hs]
    rw [movesLeft_none _ hno]
    omega
  | cons c rest =>
    cases hj : jsId c.pizzaOptionId with
    | none =>
      have hno : (initVoter v).allocatedTo = none := by
        rw [initVoter_allocatedTo, hs]
        exact hj
      rw [movesLeft_none _ hno]
      omega
    | some q =>
      have hq : q = c.pizzaOptionId := jsId_eq_some _ _ hj
      subst hq
      have hal : (initVoter v).allocatedTo = some c.pizzaOptionId := by
        rw [initVoter_allocatedTo, hs]
        exact hj
      rw [movesLeft_alloc_some _ _ hal, initVoter_choices, hs]
      rw [List.find?_cons_of_pos rest (by simp)]
      have hcount : ((c :: rest).countP fun x => decide (c.priority < x.priority)) ≤
          rest.length := by
        rw [List.countP_cons]
        have hself : decide (c.priority < c.priority) = false := by simp
        rw [hself]
        have hrest : rest.countP (fun x => decide (c.priority < x.priority)) ≤
            rest.length := List.countP_le_length _
        simp
        omega
      have hlenv : (c :: rest).length = v.choices.length := by
        rw [← hs, sortChoices, List.length_insertionSort]
      have hlen3 := hlen v hv
      show 1 + ((c :: rest).countP fun x => decide (c.priority < x.priority)) ≤ 3
      have hrl : rest.length + 1 ≤ 3 := by
        rw [List.length_cons] at hlenv
        omega
      omega

theorem viable_iterPass (s : List Voter) (n : Nat) (pid : String)
    (h4 : MIN_SLICES_TO_ROUND_UP ≤ demandOf s pid) :
    MIN_SLICES_TO_ROUND_UP ≤ demandOf (iterPass n s) pid := by
  induction n generalizing s with
  | zero => exact h4
  | succ n ih =>
    show MIN_SLICES_TO_ROUND_UP ≤ demandOf (iterPass n (runPass s).1) pid
    apply ih
    have := demand_le_runPass s pid h4
    omega

theorem GoodState_iterPass (n : Nat) (s : List Voter) (hg : GoodState s) :
    GoodState (iterPass n s) := by
  induction n generalizing s with
  | zero => exact hg
  | succ n ih => exact ih _ (GoodState_runPass s hg)

theorem voterMoves_intro (u : String → Bool) (w : Voter) (pid : String)
    (h : w.allocatedTo = some pid) (hu : u pid = true)
    (hfs : (w.choices.find? fun c => decide (c.pizzaOptionId = pid)).isSome = true) :
    voterMoves u w = true := by
  unfold voterMoves
  rw [h]
  show (u pid && (w.choices.find? fun c => decide (c.pizzaOptionId = pid)).isSome) = true
  rw [hu, hfs]
  rfl

theorem generateReport_pizzaOrders (opts : List PizzaOption) (votes : List Vote) :
    (generateReport opts votes).pizzaOrders =
      (positiveDemands opts (waterfall votes).1).filterMap orderEntryOf := rfl

theorem generateReport_droppedOptions (opts : List PizzaOption) (votes : List Vote) :
    (generateReport opts votes).droppedOptions =
      (positiveDemands opts (waterfall votes).1).filterMap remainderDropOf ++
        (((waterfall votes).1).filter fun v => decide (v.allocatedTo = none)).map
          (fun v => unallocatedMsg v.userName v.sliceCount) := rfl

theorem orderEntryOf_eq_spec (d : PizzaDemand) :
    orderEntryOf d =
      (if 0 < specQuantity d.totalSlices then
        some { name := d.name, quantity := specQuantity d.totalSlices,
               slicesRequested := d.totalSlices }
      else none) := rfl

theorem orderEntryOf_some_elim (d : PizzaDemand) (e : PizzaOrder)
    (h : orderEntryOf d = some e) :
    e = { name := d.name, quantity := specQuantity d.totalSlices,
          slicesRequested := d.totalSlices } ∧ 0 < specQuantity d.totalSlices := by
  rw [orderEntryOf_eq_spec] at h
  by_cases hq : 0 < specQuantity d.totalSlices
  · rw [if_pos hq] at h
    injection h with h
    exact ⟨h.symm, hq⟩
  · rw [if_neg hq] at h
    cases h

theorem specQuantity_pos_of_ge4 (ts : Nat) (h : 4 ≤ ts) : 1 ≤ specQuantity ts := by
  unfold specQuantity
  by_cases h8 : 4 ≤ ts % 8
  · rw [if_pos h8]
    omega
  · rw [if_neg h8]
    have := Nat.div_add_mod ts 8
    omega

theorem filterMap_if_eq {α β : Type} (f : α → β) (p : α → Prop) [DecidablePred p]
    (l : List α) :
    (l.filterMap fun a => if p a then some (f a) else none) =
      (l.filter fun a => decide (p a)).map f := by
  induction l with
  | nil => rfl
  | cons a t ih =>
    rw [List.filterMap_cons, List.filter_cons]
    by_cases hp : p a
    · simp [hp, ih]
    · simp [hp, ih]

theorem length_filterMap_of_all_isSome {α β : Type} (f : α → Option β) (l : List α)
    (h : ∀ a ∈ l, (f a).isSome = true) : (l.filterMap f).length = l.length := by
  induction l with
  | nil => rfl
  | cons a t ih =>
    rw [List.filterMap_cons]
    cases hf : f a with
    | none =>
      have := h a (List.mem_cons_self a t)
      rw [hf] at this
      simp at this
    | some b =>
      rw [List.length_cons, List.length_cons]
      rw [ih fun x hx => h x (List.mem_cons_of_mem a hx)]

theorem positiveDemands_mem (opts : List PizzaOption) (s : List Voter) (d : PizzaDemand)
    (hd : d ∈ positiveDemands opts s) :
    0 < d.totalSlices ∧ ∃ o ∈ opts, d.totalSlices = demandOf s o.id := by
  unfold positiveDemands sortDemandsDesc at hd
  rw [(List.perm_insertionSort _ _).mem_iff, List.mem_filter] at hd
  obtain ⟨hmemf, hpos⟩ := hd
  unfold finalDemands at hmemf
  rw [List.mem_map] at hmemf
  obtain ⟨o, ho, rfl⟩ := hmemf
  exact ⟨of_decide_eq_true hpos, o, ho, rfl⟩

theorem demandOf_filter_isSome (s : List Voter) (pid : String) :
    demandOf (s.filter fun v => v.allocatedTo.isSome) pid = demandOf s pid := by
  induction s with
  | nil => rfl
  | cons v t ih =>
    rw [List.filter_cons]
    cases hv : v.allocatedTo with
    | none =>
      rw [demandOf_cons, hv]
      have hfalse : (Option.none : Option String).isSome = false := rfl
      rw [hfalse]
      simp only [Bool.false_eq_true, if_false]
      rw [ih]
      simp
    | some q =>
      have htrue : (some q).isSome = true := rfl
      rw [htrue]
      simp only [if_true]
      rw [demandOf_cons, demandOf_cons, ih]

/-- How one voter's record evolves across passes: identity fields and the
ranked list never change, unallocated is terminal, the allocation always
points into the voter's own list, and the priority of the currently found
allocated choice never decreases. -/
def VoterAdvance (v w : Voter) : Prop :=
  w.oderId = v.oderId ∧ w.userName = v.userName ∧ w.sliceCount = v.sliceCount ∧
  w.choices = v.choices ∧
  (v.allocatedTo = none → w.allocatedTo = none) ∧
  (∀ pid, w.allocatedTo = some pid → pid ∈ w.choices.map fun c => c.pizzaOptionId) ∧
  (∀ pid pid2 cur cur2, v.allocatedTo = some pid → w.allocatedTo = some pid2 →
    (v.choices.find? fun c => decide (c.pizzaOptionId = pid)) = some cur →
    (w.choices.find? fun c => decide (c.pizzaOptionId = pid2)) = some cur2 →
    cur.priority ≤ cur2.priority)

theorem VoterAdvance_refl (v : Voter) (hok : allocOk v) : VoterAdvance v v := by
  refine ⟨rfl, rfl, rfl, rfl, fun h => h, hok, ?_⟩
  intro pid pid2 cur cur2 h1 h2 hf1 hf2
  rw [h1] at h2
  injection h2 with h2
  subst h2
  rw [hf1] at hf2
  injection hf2 with hf2
  subst hf2
  exact Int.le_refl _

theorem VoterAdvance_trans (v w x : Voter) (h1 : VoterAdvance v w)
    (h2 : VoterAdvance w x) : VoterAdvance v x := by
  obtain ⟨a1, b1, c1, d1, e1, f1, g1⟩ := h1
  obtain ⟨a2, b2, c2, d2, e2, f2, g2⟩ := h2
  refine ⟨a2.trans a1, b2.trans b1, c2.trans c1, d2.trans d1, fun h => e2 (e1 h), f2, ?_⟩
  intro pid pid2 cur cur2 hv hx hfv hfx
  cases hw : w.allocatedTo with
  | none =>
    have hxn := e2 hw
    rw [hxn] at hx
    cases hx
  | some pidw =>
    obtain ⟨c, hc, hcid⟩ := List.mem_map.mp (f1 pidw hw)
    have hfs : (w.choices.find? fun cc => decide (cc.pizzaOptionId = pidw)).isSome := by
      rw [List.find?_isSome]
      exact ⟨c, hc, by simp [hcid]⟩
    cases hfw : w.choices.find? fun cc => decide (cc.pizzaOptionId = pidw) with
    | none =>
      rw [hfw] at hfs
      simp at hfs
    | some curw =>
      have hle1 : cur.priority ≤ curw.priority :=
        g1 pid pidw cur curw hv hw hfv hfw
      have hle2 : curw.priority ≤ cur2.priority := by
        apply g2 pidw pid2 curw cur2 hw hx
        · exact hfw
        · exact hfx
      omega

theorem VoterAdvance_step (u : String → Bool) (v : Voter) (hok : allocOk v)
    (hnod : nodupIds v) : VoterAdvance v (stepVoter u v) := by
  rcases stepVoter_cases u v with heq | ⟨pid, cur, next, halloc, hu, hcur, hnext, heq⟩ |
      ⟨pid, cur, halloc, hu, hcur, hnext, heq⟩
  · rw [heq]
    exact VoterAdvance_refl v hok
  · rw [heq]
    refine ⟨rfl, rfl, rfl, rfl, ?_, ?_, ?_⟩
    · intro h
      rw [h] at halloc
      cases halloc
    · intro q hq
      have hq2 : jsId next.pizzaOptionId = some q := hq
      have := jsId_eq_some _ _ hq2
      subst this
      show next.pizzaOptionId ∈ v.choices.map fun c => c.pizzaOptionId
      exact List.mem_map_of_mem _ (List.mem_of_find?_eq_some hnext)
    · intro pid1 pid2 cur1 cur2 h1 h2 hf1 hf2
      rw [halloc] at h1
      injection h1 with h1
      subst h1
      rw [hcur] at hf1
      injection hf1 with hf1
      subst hf1
      have h2q : jsId next.pizzaOptionId = some pid2 := h2
      have := jsId_eq_some _ _ h2q
      subst this
      have hch : ({ v with allocatedTo := jsId next.pizzaOptionId } : Voter).choices =
          v.choices := rfl
      rw [hch] at hf2
      have hfind := find?_id_eq_of_nodup v.choices hnod next (List.mem_of_find?_eq_some hnext)
      rw [hfind] at hf2
      injection hf2 with hf2
      subst hf2
      have hcn : cur.priority < next.priority := by
        have := List.find?_some hnext
        simpa using this
      omega
  · rw [heq]
    refine ⟨rfl, rfl, rfl, rfl, fun _ => rfl, ?_, ?_⟩
    · intro q hq
      have hq2 : (none : Option String) = some q := hq
      cases hq2
    · intro pid1 pid2 cur1 cur2 h1 h2 hf1 hf2
      have h2q : (none : Option String) = some pid2 := h2
      cases h2q

theorem forall₂_trans_of {α : Type} (R : α → α → Prop)
    (htrans : ∀ a b c, R a b → R b c → R a c) :
    ∀ {l1 l2 l3 : List α}, List.Forall₂ R l1 l2 → List.Forall₂ R l2 l3 →
      List.Forall₂ R l1 l3 := by
  intro l1 l2 l3 h12
  induction h12 generalizing l3 with
  | nil =>
    intro h23
    cases h23
    exact List.Forall₂.nil
  | cons hab h ih =>
    intro h23
    cases h23 with
    | cons hbc h2 => exact List.Forall₂.cons (htrans _ _ _ hab hbc) (ih h2)

theorem Forall₂_advance_runPass (s : List Voter) (hg : GoodState s) :
    List.Forall₂ VoterAdvance s (runPass s).1 := by
  rw [runPass_fst, List.forall₂_map_right_iff, List.forall₂_same]
  intro v hv
  exact VoterAdvance_step _ v (hg v hv).1 (hg v hv).2

theorem Forall₂_advance_runLoop (fuel : Nat) (s : List Voter) (hg : GoodState s) :
    List.Forall₂ VoterAdvance s (runLoop fuel s).1 := by
  induction fuel generalizing s with
  | zero =>
    show List.Forall₂ VoterAdvance s s
    rw [List.forall₂_same]
    exact fun v hv => VoterAdvance_refl v (hg v hv).1
  | succ fuel ih =>
    simp only [runLoop]
    by_cases hc : (runPass s).2 = true
    · rw [if_pos hc]
      exact forall₂_trans_of _ VoterAdvance_trans (Forall₂_advance_runPass s hg)
        (ih _ (GoodState_runPass s hg))
    · rw [if_neg hc]
      exact Forall₂_advance_runPass s hg

/-! ### Concrete inputs used by counterexamples, scenarios and witnesses -/

def choiceA : ChoiceRec := { pizzaOptionId := "A", pizzaName := "Margherita", priority := 1 }

def choiceB : ChoiceRec := { pizzaOptionId := "B", pizzaName := "Pepperoni", priority := 2 }

def choiceC : ChoiceRec := { pizzaOptionId := "C", pizzaName := "Veggie", priority := 3 }

def optionA : PizzaOption := { id := "A", name := "Margherita", toppingCount := 1 }

def optionB : PizzaOption := { id := "B", name := "Pepperoni", toppingCount := 1 }

def optionC : PizzaOption := { id := "C", name := "Veggie", toppingCount := 2 }

def catalogABC : List PizzaOption := [optionA, optionB, optionC]

/-- One voter with 2 slices and ranked choices A > B > C (spec §8 scenario 2). -/
def voteABC : Vote :=
  { userId := "u1", userName := "Alex", sliceCount := 2, choices := [choiceA, choiceB, choiceC] }

/-- One voter with 2 slices and ranked choices A > B. -/
def voteAB : Vote :=
  { userId := "u2", userName := "Blake", sliceCount := 2, choices := [choiceB, choiceA] }

/-- One voter with 4 slices and single choice A. -/
def voteA4 : Vote :=
  { userId := "u3", userName := "Casey", sliceCount := 4, choices := [choiceA] }

/-- A vote whose fetched choices are not in priority order: priority 2
first, priority 1 second. -/
def voteBA : Vote :=
  { userId := "u4", userName := "Drew", sliceCount := 2, choices := [choiceB, choiceA] }

/-! ### The claims -/

/-- C1. Quantizer threshold correctness: the order list holds exactly the
positive-final-demand entries whose spec quantity floor(d/8) + (1 if d mod
8 >= 4 else 0) is positive, each entry carrying that quantity; options whose
quantity would be 0 are omitted entirely. -/
theorem C1_threshold_correctness (opts : List PizzaOption) (votes : List Vote) :
    (generateReport opts votes).pizzaOrders =
      ((positiveDemands opts (waterfall votes).1).filter fun d =>
        decide (0 < specQuantity d.totalSlices)).map
        (fun d => { name := d.name, quantity := specQuantity d.totalSlices,
                    slicesRequested := d.totalSlices }) ∧
    ∀ e ∈ (generateReport opts votes).pizzaOrders,
      e.quantity = specQuantity e.slicesRequested ∧ 0 < e.quantity := by
  have hfun : orderEntryOf = fun d : PizzaDemand =>
      if 0 < specQuantity d.totalSlices then
        some { name := d.name, quantity := specQuantity d.totalSlices,
               slicesRequested := d.totalSlices }
      else none := funext orderEntryOf_eq_spec
  have hmain : (generateReport opts votes).pizzaOrders =
      ((positiveDemands opts (waterfall votes).1).filter fun d =>
        decide (0 < specQuantity d.totalSlices)).map
        (fun d => { name := d.name, quantity := specQuantity d.totalSlices,
                    slicesRequested := d.totalSlices }) := by
    rw [generateReport_pizzaOrders, hfun, filterMap_if_eq]
  refine ⟨hmain, ?_⟩
  intro e he
  rw [hmain, List.mem_map] at he
  obtain ⟨d, hd, rfl⟩ := he
  rw [List.mem_filter] at hd
  exact ⟨rfl, of_decide_eq_true hd.2⟩

/-- C5. Conservation: the summary's total requested slices is the sum of
the input votes' slice counts, whatever the allocation outcome. -/
theorem C5_conservation (opts : List PizzaOption) (votes : List Vote) :
    (generateReport opts votes).summary.totalSlicesRequested =
      (votes.map fun v => v.sliceCount).sum := rfl

/-- C7. A voter who exhausts every ranked choice ends unallocated: dropping
all unallocated voters changes no option's demand (their slices are excluded
from every demand sum), the report is assembled normally with the dropped
list equal to the quantizer's remainder messages followed by exactly one
message per unallocated voter carrying their name and slice count, and each
unallocated voter's message is in the dropped list. -/
theorem C7_unallocated_reporting (opts : List PizzaOption) (votes : List Vote) :
    (∀ pid, demandOf (((waterfall votes).1).filter fun v => v.allocatedTo.isSome) pid =
      demandOf (waterfall votes).1 pid) ∧
    (generateReport opts votes).droppedOptions =
      (positiveDemands opts (waterfall votes).1).filterMap remainderDropOf ++
        (((waterfall votes).1).filter fun v => decide (v.allocatedTo = none)).map
          (fun v => unallocatedMsg v.userName v.sliceCount) ∧
    ∀ v ∈ (waterfall votes).1, v.allocatedTo = none →
      unallocatedMsg v.userName v.sliceCount ∈ (generateReport opts votes).droppedOptions := by
  refine ⟨fun pid => demandOf_filter_isSome _ pid, rfl, ?_⟩
  intro v hv hvn
  rw [generateReport_droppedOptions]
  apply List.mem_append_right
  apply List.mem_map_of_mem
  rw [List.mem_filter]
  exact ⟨hv, by simp [hvn]⟩

/-- C8. Concrete scenario (spec §8 scenario 2): one voter, 2 slices,
choices A > B > C. The voter starts on A with demand 2, is evicted to B,
then to C, each with demand 2 < 4, ends unallocated; the order list is
empty and the dropped list holds exactly one entry naming the voter and
their 2 slices. -/
theorem C8_single_voter_cascade :
    ((initState [voteABC]).map fun v => v.allocatedTo) = [some "A"] ∧
    demandOf (initState [voteABC]) "A" = 2 ∧
    ((iterPass 1 (initState [voteABC])).map fun v => v.allocatedTo) = [some "B"] ∧
    demandOf (iterPass 1 (initState [voteABC])) "B" = 2 ∧
    ((iterPass 2 (initState [voteABC])).map fun v => v.allocatedTo) = [some "C"] ∧
    demandOf (iterPass 2 (initState [voteABC])) "C" = 2 ∧
    ((iterPass 3 (initState [voteABC])).map fun v => v.allocatedTo) = [none] ∧
    ((waterfall [voteABC]).1.map fun v => v.allocatedTo) = [none] ∧
    (generateReport catalogABC [voteABC]).pizzaOrders = [] ∧
    (generateReport catalogABC [voteABC]).droppedOptions = [unallocatedMsg "Alex" 2] := by
  decide

instance : IsTotal ChoiceRec fun a b => a.priority ≤ b.priority :=
  ⟨fun a b => Int.le_total a.priority b.priority⟩

instance : IsTrans ChoiceRec fun a b => a.priority ≤ b.priority :=
  ⟨fun _ _ _ h1 h2 => le_trans h1 h2⟩

/-- C4 (amended). The engine leaves every vote's scalar fields and the set
of its choices unchanged, but it does sort each vote's choices array in
place (JS `Array.prototype.sort` at part_012 lines 49-50): after the call
the caller's vote objects hold the same choices reordered into ascending
priority. -/
theorem C4_choices_sorted_in_place (votes : List Vote) :
    List.Forall₂ (fun v w => w.userId = v.userId ∧ w.userName = v.userName ∧
      w.sliceCount = v.sliceCount ∧ w.choices.Perm v.choices ∧
      List.Pairwise (fun a b : ChoiceRec => a.priority ≤ b.priority) w.choices)
      votes (postVotes votes) := by
  unfold postVotes
  rw [List.forall₂_map_right_iff, List.forall₂_same]
  intro v _
  refine ⟨rfl, rfl, rfl, List.perm_insertionSort _ _, ?_⟩
  exact List.sorted_insertionSort _ v.choices

/-- C4 (counterexample). A vote whose fetched choices are not already in
priority order is not left unchanged: the source vote's choices list is
reordered. -/
theorem C4_mutation_cex : ¬ (postVotes [voteBA] = [voteBA]) := by decide

/-- C3 (counterexample, the negation of the claim): on no input does an
option that is viable (demand >= 4) at one pass become unviable (demand
strictly between 0 and 4) at any later pass. -/
theorem C3_demotion_cex :
    ¬ ∃ (votes : List Vote) (k j : Nat) (pid : String), k < j ∧
      MIN_SLICES_TO_ROUND_UP ≤ demandOf (iterPass k (initState votes)) pid ∧
      0 < demandOf (iterPass j (initState votes)) pid ∧
      demandOf (iterPass j (initState votes)) pid < MIN_SLICES_TO_ROUND_UP := by
  rintro ⟨votes, k, j, pid, hkj, h4, hpos, hlt⟩
  have hj : j = k + (j - k) := by omega
  have hge := viable_iterPass (iterPass k (initState votes)) (j - k) pid h4
  rw [← iterPass_add, ← hj] at hge
  omega

/-- C3 (amended). A viable option is never demoted: once an option's demand
reaches 4 it stays at least 4 in every later pass. What the global per-pass
re-evaluation does catch — and why the fixed-point loop is needed — is that
a previously zero-demand (hence not unviable) option can become unviable in
a later pass when a moved voter lands on it, as the concrete input shows:
option B has demand 0 (not unviable) at the first pass and demand 2
(unviable) at the second. -/
theorem C3_no_viable_demotion :
    (demandOf (iterPass 0 (initState [voteAB])) "B" = 0 ∧
     unviableAt (iterPass 0 (initState [voteAB])) "B" = false ∧
     demandOf (iterPass 1 (initState [voteAB])) "B" = 2 ∧
     unviableAt (iterPass 1 (initState [voteAB])) "B" = true) ∧
    ∀ (votes : List Vote) (k j : Nat) (pid : String), k ≤ j →
      MIN_SLICES_TO_ROUND_UP ≤ demandOf (iterPass k (initState votes)) pid →
      MIN_SLICES_TO_ROUND_UP ≤ demandOf (iterPass j (initState votes)) pid := by
  constructor
  · decide
  · intro votes k j pid hkj h4
    have hj : j = k + (j - k) := by omega
    rw [hj, iterPass_add]
    exact viable_iterPass _ _ pid h4

/-- C2 (amended). For validated votes (ranked lists of length at most 3
with pairwise distinct option ids, the input contract of spec §3/§6), the
reallocation loop executes at most 4 passes — up to 3 advancing passes plus
the confirming pass that finds the fixed point — so the cap of 10 never
binds: the loop always exits on a changeless pass, and the final state is a
fixed point of the pass body. -/
theorem C2_reallocation_iterations (votes : List Vote)
    (hlen : ∀ v ∈ votes, v.choices.length ≤ 3)
    (hnodup : ∀ v ∈ votes, (v.choices.map fun c => c.pizzaOptionId).Nodup) :
    (waterfall votes).2 ≤ 4 ∧ (runPass (waterfall votes).1).2 = false := by
  have hg := GoodState_init votes hnodup
  have hb := withinBudget_init votes hlen
  have hl := runLoop_le_budget 3 maxIterations (initState votes) hg hb (by decide)
  constructor
  · show (runLoop maxIterations (initState votes)).2 ≤ 4
    have h1 := hl.1
    omega
  · exact hl.2

/-- C2 (counterexample). A single valid voter with the 3-element ranked
list A > B > C drives the loop through 4 iterations, so the iteration count
is not bounded by the length of the longest ranked list (3). -/
theorem C2_reallocation_iterations_cex :
    (∀ v ∈ [voteABC], v.choices.length ≤ 3) ∧ 3 < (waterfall [voteABC]).2 :=
  ⟨by decide, by decide⟩

theorem C2_reallocation_iterations_witness :
    (waterfall [voteABC]).2 ≤ 4 ∧ (runPass (waterfall [voteABC]).1).2 = false :=
  C2_reallocation_iterations [voteABC] (by decide) (by decide)

/-- C9. Termination: for votes satisfying the ranked-choice length bound the
loop body executes at most 10 times (the `iterations` counter never exceeds
`maxIterations`). -/
theorem C9_loop_terminates (votes : List Vote)
    (hlen : ∀ v ∈ votes, v.choices.length ≤ 3) :
    (waterfall votes).2 ≤ 10 := by
  show (runLoop maxIterations (initState votes)).2 ≤ 10
  exact runLoop_count_le_fuel maxIterations _

theorem C9_loop_terminates_witness :
    (∀ v ∈ [voteABC], v.choices.length ≤ 3) ∧ (waterfall [voteABC]).2 ≤ 10 :=
  ⟨by decide, C9_loop_terminates [voteABC] (by decide)⟩

/-- C6. Monotonic advancement: with distinct choice ids per vote (the input
contract), every voter advances monotonically — between consecutive passes
of the engine trajectory, and from the initial state to the loop's final
state, each voter keeps identity, slices and ranked list, a null allocation
stays null, and the priority of the currently allocated (found) choice
never decreases. -/
theorem C6_monotonic_advancement (votes : List Vote) (n : Nat)
    (hnodup : ∀ v ∈ votes, (v.choices.map fun c => c.pizzaOptionId).Nodup) :
    List.Forall₂ VoterAdvance (iterPass n (initState votes))
      (iterPass (n + 1) (initState votes)) ∧
    List.Forall₂ VoterAdvance (initState votes) ((waterfall votes).1) := by
  have hg : GoodState (initState votes) := GoodState_init votes hnodup
  constructor
  · rw [iterPass_succ_out]
    exact Forall₂_advance_runPass _ (GoodState_iterPass n _ hg)
  · exact Forall₂_advance_runLoop maxIterations _ hg

theorem C6_monotonic_advancement_witness :
    List.Forall₂ VoterAdvance (iterPass 1 (initState [voteABC]))
      (iterPass 2 (initState [voteABC])) ∧
    List.Forall₂ VoterAdvance (initState [voteABC]) ((waterfall [voteABC]).1) :=
  C6_monotonic_advancement [voteABC] 1 (by decide)

/-- C10. Loop-exit invariant: with validated votes (length bound and
distinct choice ids), at loop exit every option's demand is 0 or at least
4; consequently every order line has quantity >= 1 and slicesRequested >= 4,
and the quantity-0 omission branch never fires (the order list keeps one
entry per positive-demand option). -/
theorem C10_exit_invariant (opts : List PizzaOption) (votes : List Vote)
    (hlen : ∀ v ∈ votes, v.choices.length ≤ 3)
    (hnodup : ∀ v ∈ votes, (v.choices.map fun c => c.pizzaOptionId).Nodup) :
    (∀ pid, demandOf ((waterfall votes).1) pid = 0 ∨
      MIN_SLICES_TO_ROUND_UP ≤ demandOf ((waterfall votes).1) pid) ∧
    (∀ e ∈ (generateReport opts votes).pizzaOrders,
      1 ≤ e.quantity ∧ MIN_SLICES_TO_ROUND_UP ≤ e.slicesRequested) ∧
    (generateReport opts votes).pizzaOrders.length =
      (positiveDemands opts ((waterfall votes).1)).length := by
  have hg := GoodState_init votes hnodup
  have hb := withinBudget_init votes hlen
  have hl := runLoop_le_budget 3 maxIterations (initState votes) hg hb (by decide)
  have hstable : (runPass ((waterfall votes).1)).2 = false := hl.2
  have hgw : GoodState ((waterfall votes).1) := GoodState_runLoop maxIterations _ hg
  have hA : ∀ pid, demandOf ((waterfall votes).1) pid = 0 ∨
      MIN_SLICES_TO_ROUND_UP ≤ demandOf ((waterfall votes).1) pid := by
    intro pid
    by_cases h0 : demandOf ((waterfall votes).1) pid = 0
    · exact Or.inl h0
    · right
      by_contra h4
      have hpos : 0 < demandOf ((waterfall votes).1) pid := Nat.pos_of_ne_zero h0
      obtain ⟨w, hw, hwa, hws⟩ := demand_pos_contributor _ pid hpos
      have hu : unviableAt ((waterfall votes).1) pid = true := by
        unfold unviableAt
        have hlt : demandOf ((waterfall votes).1) pid < MIN_SLICES_TO_ROUND_UP := by
          omega
        simp [hpos, hlt]
      have hfs : (w.choices.find? fun c => decide (c.pizzaOptionId = pid)).isSome = true := by
        rw [List.find?_isSome]
        obtain ⟨c, hc, hcid⟩ := List.mem_map.mp ((hgw w hw).1 pid hwa)
        exact ⟨c, hc, by simp [hcid]⟩
      have hmov := voterMoves_intro (unviableAt ((waterfall votes).1)) w pid hwa hu hfs
      rw [runPass_snd, List.any_eq_false] at hstable
      exact hstable w hw hmov
  refine ⟨hA, ?_, ?_⟩
  · intro e he
    rw [generateReport_pizzaOrders, List.mem_filterMap] at he
    obtain ⟨d, hd, hde⟩ := he
    obtain ⟨hdpos, o, ho, hts⟩ := positiveDemands_mem _ _ d hd
    have h4 : MIN_SLICES_TO_ROUND_UP ≤ d.totalSlices := by
      rcases hA o.id with h | h
      · rw [hts] at hdpos
        omega
      · rw [hts]
        exact h
    obtain ⟨he2, hq⟩ := orderEntryOf_some_elim d e hde
    subst he2
    exact ⟨specQuantity_pos_of_ge4 d.totalSlices h4, h4⟩
  · rw [generateReport_pizzaOrders]
    apply length_filterMap_of_all_isSome
    intro d hd
    obtain ⟨hdpos, o, ho, hts⟩ := positiveDemands_mem _ _ d hd
    have h4 : MIN_SLICES_TO_ROUND_UP ≤ d.totalSlices := by
      rcases hA o.id with h | h
      · rw [hts] at hdpos
        omega
      · rw [hts]
        exact h
    rw [orderEntryOf_eq_spec]
    have hq := specQuantity_pos_of_ge4 d.totalSlices h4
    rw [if_pos (by omega)]
    rfl

theorem C10_exit_invariant_witness :
    (∀ pid, demandOf ((waterfall [voteABC]).1) pid = 0 ∨
      MIN_SLICES_TO_ROUND_UP ≤ demandOf ((waterfall [voteABC]).1) pid) ∧
    (∀ e ∈ (generateReport catalogABC [voteABC]).pizzaOrders,
      1 ≤ e.quantity ∧ MIN_SLICES_TO_ROUND_UP ≤ e.slicesRequested) ∧
    (generateReport catalogABC [voteABC]).pizzaOrders.length =
      (positiveDemands catalogABC ((waterfall [voteABC]).1)).length :=
  C10_exit_invariant catalogABC [voteABC] (by decide) (by decide)
